import Mathlib

/-!
Verification of the gitvcl mirroring tool (src/main.py) against its
natural-language specification.

The development shallowly embeds the reconciliation core of `main.py`:

* payloads and files are byte sequences (`Bytes := List Nat`, each entry a
  byte value); the base64 transit encoding is a bijection on well-formed
  transit data, so artifact payload fields are modelled post-`b64decode`;
* the SHA-256 primitive from `hashlib` is an external library; it is
  modelled as a parameter `hash : Bytes → Bytes` (the spec treats the
  digest as collision-free, i.e. injective, which becomes an explicit
  hypothesis exactly where a claim needs it);
* Python's strict `bytes.decode('utf-8')` and the text-mode re-encoding
  performed by `open(path, "w").write(s)` are embedded as an executable
  UTF-8 decoder to code points and encoder back to bytes (the deployment
  default text encoding is UTF-8 and no newline translation happens on the
  target platform);
* the mirror directory is an association list from file name to content
  bytes; git index bookkeeping and logging are external adapters with no
  bearing on the claims and are not part of the state;
* `requests` exceptions form an error type `ReqError`; a
  `UnicodeDecodeError` raised by `.decode('utf-8')` is a distinct,
  uncaught outcome.
-/

set_option maxRecDepth 8000

/-- A byte sequence: list of byte values (each < 256 in well-formed data). -/
abbrev Bytes := List Nat

/-! ## UTF-8 decoding and encoding

`process_file` runs `b64decode(file_source).decode('utf-8')` and
`write_file` writes the resulting string in text mode.  `utf8Step` and
`utf8Decode` mirror Python's strict UTF-8 decoder (rejecting lone
continuation bytes, overlong forms, surrogates and values above
U+10FFFF); `utf8Encode` mirrors the UTF-8 encoding performed when the
decoded string is written back in text mode. -/

/-- Lower bound for the first continuation byte of a 3-byte sequence
(excludes overlong forms for lead byte 0xE0). -/
def c1lo3 (b : Nat) : Nat := if b = 0xE0 then 0xA0 else 0x80

/-- Upper bound for the first continuation byte of a 3-byte sequence
(excludes surrogates for lead byte 0xED). -/
def c1hi3 (b : Nat) : Nat := if b = 0xED then 0x9F else 0xBF

/-- Lower bound for the first continuation byte of a 4-byte sequence
(excludes overlong forms for lead byte 0xF0). -/
def c1lo4 (b : Nat) : Nat := if b = 0xF0 then 0x90 else 0x80

/-- Upper bound for the first continuation byte of a 4-byte sequence
(excludes code points above U+10FFFF for lead byte 0xF4). -/
def c1hi4 (b : Nat) : Nat := if b = 0xF4 then 0x8F else 0xBF

/-- Decode one UTF-8 sequence from the front of a byte list, returning the
code point and the remaining bytes; `none` on empty input or on a strict
decoding error at the front. -/
def utf8Step : Bytes → Option (Nat × Bytes)
  | [] => none
  | b :: rest =>
    if b ≤ 0x7F then some (b, rest)
    else if 0xC2 ≤ b ∧ b ≤ 0xDF then
      match rest with
      | c1 :: r =>
        if 0x80 ≤ c1 ∧ c1 ≤ 0xBF then
          some ((b - 0xC0) * 0x40 + (c1 - 0x80), r)
        else none
      | [] => none
    else if 0xE0 ≤ b ∧ b ≤ 0xEF then
      match rest with
      | c1 :: c2 :: r =>
        if c1lo3 b ≤ c1 ∧ c1 ≤ c1hi3 b ∧ 0x80 ≤ c2 ∧ c2 ≤ 0xBF then
          some ((b - 0xE0) * 0x1000 + (c1 - 0x80) * 0x40 + (c2 - 0x80), r)
        else none
      | _ => none
    else if 0xF0 ≤ b ∧ b ≤ 0xF4 then
      match rest with
      | c1 :: c2 :: c3 :: r =>
        if c1lo4 b ≤ c1 ∧ c1 ≤ c1hi4 b ∧ 0x80 ≤ c2 ∧ c2 ≤ 0xBF ∧
            0x80 ≤ c3 ∧ c3 ≤ 0xBF then
          some ((b - 0xF0) * 0x40000 + (c1 - 0x80) * 0x1000 +
            (c2 - 0x80) * 0x40 + (c3 - 0x80), r)
        else none
      | _ => none
    else none

/-- Fuel-indexed strict UTF-8 decoding loop; the fuel only bounds the
number of decoded sequences and is irrelevant whenever it is at least the
input length (`utf8DecodeAux_fuel`). -/
def utf8DecodeAux : Nat → Bytes → Option (List Nat)
  | _, [] => some []
  | 0, _ :: _ => none
  | fuel + 1, b :: rest =>
    match utf8Step (b :: rest) with
    | some cr => (utf8DecodeAux fuel cr.2).map (cr.1 :: ·)
    | none => none

/-- Strict UTF-8 decoding of a byte sequence to a list of code points;
`none` models a `UnicodeDecodeError`. -/
def utf8Decode (bs : Bytes) : Option (List Nat) := utf8DecodeAux bs.length bs

/-- UTF-8 encoding of a single code point. -/
def utf8EncodeChar (c : Nat) : Bytes :=
  if c ≤ 0x7F then [c]
  else if c ≤ 0x7FF then [0xC0 + c / 0x40, 0x80 + c % 0x40]
  else if c ≤ 0xFFFF then
    [0xE0 + c / 0x1000, 0x80 + c / 0x40 % 0x40, 0x80 + c % 0x40]
  else
    [0xF0 + c / 0x40000, 0x80 + c / 0x1000 % 0x40,
     0x80 + c / 0x40 % 0x40, 0x80 + c % 0x40]

/-- UTF-8 encoding of a list of code points. -/
def utf8Encode (cs : List Nat) : Bytes := (cs.map utf8EncodeChar).flatten

theorem utf8Encode_cons (c : Nat) (cs : List Nat) :
    utf8Encode (c :: cs) = utf8EncodeChar c ++ utf8Encode cs := by
  simp [utf8Encode]

/-- A successful decoding step consumes at least one byte. -/
theorem utf8Step_length (bs : Bytes) (c : Nat) (r : Bytes)
    (h : utf8Step bs = some (c, r)) : r.length < bs.length := by
  cases bs with
  | nil => exact Option.noConfusion h
  | cons b rest =>
    rw [utf8Step.eq_def] at h
    by_cases h1 : b ≤ 0x7F
    · simp only [if_pos h1] at h
      injection h with h2
      injection h2 with h3 h4
      simp [← h4]
    simp only [if_neg h1] at h
    by_cases h2 : 0xC2 ≤ b ∧ b ≤ 0xDF
    · simp only [if_pos h2] at h
      cases rest with
      | nil => exact Option.noConfusion h
      | cons c1 r1 =>
        by_cases h3 : 0x80 ≤ c1 ∧ c1 ≤ 0xBF
        · simp only [if_pos h3] at h
          injection h with hp
          injection hp with hp1 hp2
          simp [← hp2]
          omega
        · simp only [if_neg h3] at h
          exact Option.noConfusion h
    simp only [if_neg h2] at h
    by_cases h4 : 0xE0 ≤ b ∧ b ≤ 0xEF
    · simp only [if_pos h4] at h
      match rest, h with
      | [], h => exact Option.noConfusion h
      | [c1], h => exact Option.noConfusion h
      | c1 :: c2 :: r1, h =>
        by_cases h5 : c1lo3 b ≤ c1 ∧ c1 ≤ c1hi3 b ∧ 0x80 ≤ c2 ∧ c2 ≤ 0xBF
        · simp only [if_pos h5] at h
          injection h with hp
          injection hp with hp1 hp2
          simp [← hp2]
          omega
        · simp only [if_neg h5] at h
          exact Option.noConfusion h
    simp only [if_neg h4] at h
    by_cases h6 : 0xF0 ≤ b ∧ b ≤ 0xF4
    · simp only [if_pos h6] at h
      match rest, h with
      | [], h => exact Option.noConfusion h
      | [c1], h => exact Option.noConfusion h
      | [c1, c2], h => exact Option.noConfusion h
      | c1 :: c2 :: c3 :: r1, h =>
        by_cases h7 : c1lo4 b ≤ c1 ∧ c1 ≤ c1hi4 b ∧ 0x80 ≤ c2 ∧ c2 ≤ 0xBF ∧
            0x80 ≤ c3 ∧ c3 ≤ 0xBF
        · simp only [if_pos h7] at h
          injection h with hp
          injection hp with hp1 hp2
          simp [← hp2]
          omega
        · simp only [if_neg h7] at h
          exact Option.noConfusion h
    · simp only [if_neg h6] at h
      exact Option.noConfusion h

/-- A successful decoding step, re-encoded, restores the consumed bytes. -/
theorem utf8Step_encode (bs : Bytes) (c : Nat) (r : Bytes)
    (h : utf8Step bs = some (c, r)) : utf8EncodeChar c ++ r = bs := by
  cases bs with
  | nil => exact Option.noConfusion h
  | cons b rest =>
    rw [utf8Step.eq_def] at h
    by_cases h1 : b ≤ 0x7F
    · simp only [if_pos h1] at h
      injection h with h2
      injection h2 with h3 h4
      subst h3; subst h4
      rw [utf8EncodeChar, if_pos h1]
      rfl
    simp only [if_neg h1] at h
    by_cases h2 : 0xC2 ≤ b ∧ b ≤ 0xDF
    · simp only [if_pos h2] at h
      cases rest with
      | nil => exact Option.noConfusion h
      | cons c1 r1 =>
        by_cases h3 : 0x80 ≤ c1 ∧ c1 ≤ 0xBF
        · simp only [if_pos h3] at h
          injection h with hp
          injection hp with hp1 hp2
          subst hp1; subst hp2
          have he : utf8EncodeChar ((b - 0xC0) * 0x40 + (c1 - 0x80)) =
              [b, c1] := by
            rw [utf8EncodeChar, if_neg (by omega), if_pos (by omega)]
            simp only [List.cons.injEq, and_true]
            omega
          rw [he]
          rfl
        · simp only [if_neg h3] at h
          exact Option.noConfusion h
    simp only [if_neg h2] at h
    by_cases h4 : 0xE0 ≤ b ∧ b ≤ 0xEF
    · simp only [if_pos h4] at h
      match rest, h with
      | [], h => exact Option.noConfusion h
      | [c1], h => exact Option.noConfusion h
      | c1 :: c2 :: r1, h =>
        by_cases h5 : c1lo3 b ≤ c1 ∧ c1 ≤ c1hi3 b ∧ 0x80 ≤ c2 ∧ c2 ≤ 0xBF
        · simp only [if_pos h5] at h
          injection h with hp
          injection hp with hp1 hp2
          subst hp1; subst hp2
          obtain ⟨hca, hcb, hcc, hcd⟩ := h5
          rw [c1lo3] at hca
          rw [c1hi3] at hcb
          have hlo2 : 0xA0 ≤ c1 ∨ (0x80 ≤ c1 ∧ b ≠ 0xE0) := by
            by_cases hb0 : b = 0xE0
            · rw [if_pos hb0] at hca; exact Or.inl hca
            · rw [if_neg hb0] at hca; exact Or.inr ⟨hca, hb0⟩
          have hhi2 : c1 ≤ 0xBF := by
            by_cases hbe : b = 0xED
            · rw [if_pos hbe] at hcb; omega
            · rw [if_neg hbe] at hcb; omega
          have hbig : ¬ (b - 0xE0) * 0x1000 + (c1 - 0x80) * 0x40 +
              (c2 - 0x80) ≤ 0x7FF := by
            rcases hlo2 with hx | ⟨hx, hne⟩
            · omega
            · have hb1 : 0xE1 ≤ b := by omega
              omega
          have he : utf8EncodeChar ((b - 0xE0) * 0x1000 + (c1 - 0x80) * 0x40 +
              (c2 - 0x80)) = [b, c1, c2] := by
            rw [utf8EncodeChar, if_neg (by omega), if_neg hbig,
              if_pos (by omega)]
            simp only [List.cons.injEq, and_true]
            omega
          rw [he]
          rfl
        · simp only [if_neg h5] at h
          exact Option.noConfusion h
    simp only [if_neg h4] at h
    by_cases h6 : 0xF0 ≤ b ∧ b ≤ 0xF4
    · simp only [if_pos h6] at h
      match rest, h with
      | [], h => exact Option.noConfusion h
      | [c1], h => exact Option.noConfusion h
      | [c1, c2], h => exact Option.noConfusion h
      | c1 :: c2 :: c3 :: r1, h =>
        by_cases h7 : c1lo4 b ≤ c1 ∧ c1 ≤ c1hi4 b ∧ 0x80 ≤ c2 ∧ c2 ≤ 0xBF ∧
            0x80 ≤ c3 ∧ c3 ≤ 0xBF
        · simp only [if_pos h7] at h
          injection h with hp
          injection hp with hp1 hp2
          subst hp1; subst hp2
          obtain ⟨hca, hcb, hcc, hcd, hce, hcf⟩ := h7
          rw [c1lo4] at hca
          rw [c1hi4] at hcb
          have hlo2 : 0x90 ≤ c1 ∨ (0x80 ≤ c1 ∧ b ≠ 0xF0) := by
            by_cases hb0 : b = 0xF0
            · rw [if_pos hb0] at hca; exact Or.inl hca
            · rw [if_neg hb0] at hca; exact Or.inr ⟨hca, hb0⟩
          have hhi2 : c1 ≤ 0xBF := by
            by_cases hbf : b = 0xF4
            · rw [if_pos hbf] at hcb; omega
            · rw [if_neg hbf] at hcb; omega
          have hbig : ¬ (b - 0xF0) * 0x40000 + (c1 - 0x80) * 0x1000 +
              (c2 - 0x80) * 0x40 + (c3 - 0x80) ≤ 0xFFFF := by
            rcases hlo2 with hx | ⟨hx, hne⟩
            · omega
            · have hb1 : 0xF1 ≤ b := by omega
              omega
          have he : utf8EncodeChar ((b - 0xF0) * 0x40000 +
              (c1 - 0x80) * 0x1000 + (c2 - 0x80) * 0x40 + (c3 - 0x80)) =
              [b, c1, c2, c3] := by
            rw [utf8EncodeChar, if_neg (by omega), if_neg (by omega),
              if_neg hbig]
            simp only [List.cons.injEq, and_true]
            omega
          rw [he]
          rfl
        · simp only [if_neg h7] at h
          exact Option.noConfusion h
    · simp only [if_neg h6] at h
      exact Option.noConfusion h

/-- The fuel of the decoding loop is irrelevant once it reaches the input
length: `utf8Decode` is a faithful rendering of the unbounded decoder. -/
theorem utf8DecodeAux_fuel (fuel : Nat) : ∀ fuel2 : Nat, ∀ bs : Bytes,
    bs.length ≤ fuel → bs.length ≤ fuel2 →
    utf8DecodeAux fuel bs = utf8DecodeAux fuel2 bs := by
  induction fuel with
  | zero =>
    intro fuel2 bs hl _
    cases bs with
    | nil => cases fuel2 <;> rfl
    | cons b rest => simp at hl
  | succ f ih =>
    intro fuel2 bs hl hl2
    cases bs with
    | nil => cases fuel2 <;> rfl
    | cons b rest =>
      cases fuel2 with
      | zero => simp at hl2
      | succ f2 =>
        rw [utf8DecodeAux, utf8DecodeAux]
        cases hstep : utf8Step (b :: rest) with
        | none => rfl
        | some cr =>
          have hlen := utf8Step_length _ _ _ hstep
          have h1 : cr.2.length ≤ f := by
            simp only [List.length_cons] at hlen hl; omega
          have h2 : cr.2.length ≤ f2 := by
            simp only [List.length_cons] at hlen hl2; omega
          simp only [ih f2 cr.2 h1 h2]

/-- Decoding then re-encoding restores the original bytes (fuel form). -/
theorem utf8DecodeAux_encode (fuel : Nat) : ∀ bs : Bytes, ∀ cs : List Nat,
    utf8DecodeAux fuel bs = some cs → utf8Encode cs = bs := by
  induction fuel with
  | zero =>
    intro bs cs h
    cases bs with
    | nil =>
      rw [utf8DecodeAux] at h
      injection h with h2
      rw [← h2]; rfl
    | cons b rest => exact Option.noConfusion h
  | succ f ih =>
    intro bs cs h
    cases bs with
    | nil =>
      rw [utf8DecodeAux] at h
      injection h with h2
      rw [← h2]; rfl
    | cons b rest =>
      rw [utf8DecodeAux] at h
      cases hstep : utf8Step (b :: rest) with
      | none => rw [hstep] at h; exact Option.noConfusion h
      | some cr =>
        rw [hstep, Option.map_eq_some'] at h
        obtain ⟨cs0, hdec, rfl⟩ := h
        rw [utf8Encode_cons, ih cr.2 cs0 hdec]
        exact utf8Step_encode _ _ _ hstep

/-- Decoding then re-encoding restores the original bytes: the text-mode
write of the strictly decoded payload puts the payload's bytes on disk. -/
theorem utf8Encode_utf8Decode (bs : Bytes) (cs : List Nat)
    (h : utf8Decode bs = some cs) : utf8Encode cs = bs :=
  utf8DecodeAux_encode bs.length bs cs h

/-! ## Mirror directory

The mirror directory (`save_folder`) is modelled as an association list
from top-level file name to content bytes; `os.path.join(save_folder, n)`
is identified with the key `n`. -/

/-- Directory state: file name to content bytes. -/
abbrev Disk := List (String × Bytes)

/-- Read a file (`open(file_path, "rb").read()` plus `os.path.isfile`):
`none` when no file with that name exists. -/
def lookupD : Disk → String → Option Bytes
  | [], _ => none
  | (m, c) :: d, n => if m = n then some c else lookupD d n

/-- Create or overwrite a file (`open(..., "w")` then `write`). -/
def writeD (n : String) (b : Bytes) : Disk → Disk
  | [] => [(n, b)]
  | (m, c) :: d => if m = n then (n, b) :: d else (m, c) :: writeD n b d

/-- Delete a file (`os.remove`). -/
def removeD (n : String) (d : Disk) : Disk := d.filter (fun e => e.1 ≠ n)

theorem lookupD_writeD_self (n : String) (b : Bytes) (d : Disk) :
    lookupD (writeD n b d) n = some b := by
  induction d with
  | nil => simp [writeD, lookupD]
  | cons e d ih =>
    by_cases h : e.1 = n
    · simp [writeD, h, lookupD]
    · simp only [writeD]
      rw [if_neg h]
      simp only [lookupD]
      rw [if_neg h]
      exact ih

theorem lookupD_writeD_ne (n m : String) (b : Bytes) (d : Disk)
    (h : m ≠ n) : lookupD (writeD n b d) m = lookupD d m := by
  induction d with
  | nil =>
    simp only [writeD, lookupD]
    rw [if_neg (fun he => h he.symm)]
  | cons e d ih =>
    by_cases he : e.1 = n
    · simp only [writeD]
      rw [if_pos he, lookupD, lookupD, if_neg (fun hx => h hx.symm),
        if_neg (he ▸ fun hx => h hx.symm)]
    · simp only [writeD]
      rw [if_neg he]
      by_cases hm : e.1 = m
      · simp [lookupD, hm]
      · rw [lookupD, lookupD, if_neg hm, if_neg hm]
        exact ih

theorem lookupD_removeD_self (n : String) (d : Disk) :
    lookupD (removeD n d) n = none := by
  induction d with
  | nil => rfl
  | cons e d ih =>
    by_cases h : e.1 = n
    · simpa [removeD, h] using ih
    · simpa [removeD, lookupD, h] using ih

theorem lookupD_removeD_ne (n m : String) (d : Disk) (h : m ≠ n) :
    lookupD (removeD n d) m = lookupD d m := by
  induction d with
  | nil => rfl
  | cons e d ih =>
    by_cases he : e.1 = n
    · rw [removeD] at ih ⊢
      simp only [List.filter_cons]
      rw [if_neg (by simp [he])]
      rw [lookupD, if_neg (he ▸ fun hx => h hx.symm)]
      exact ih
    · rw [removeD] at ih ⊢
      simp only [List.filter_cons]
      rw [if_pos (by simp [he])]
      rw [lookupD, lookupD]
      by_cases hm : e.1 = m
      · rw [if_pos hm, if_pos hm]
      · rw [if_neg hm, if_neg hm]
        exact ih

/-- A name is absent exactly when it is not among the directory's keys. -/
theorem lookupD_eq_none_iff (d : Disk) (n : String) :
    lookupD d n = none ↔ n ∉ d.map Prod.fst := by
  induction d with
  | nil => simp [lookupD]
  | cons e d ih =>
    rw [lookupD]
    by_cases h : e.1 = n
    · simp [h]
    · rw [if_neg h]
      simp only [List.map_cons, List.mem_cons]
      rw [ih]
      constructor
      · intro hx hor
        rcases hor with hor | hor
        · exact h hor.symm
        · exact hx hor
      · intro hx hmem
        exact hx (Or.inr hmem)

/-- Writing never removes a present file. -/
theorem lookupD_writeD_isSome (n m : String) (b : Bytes) (d : Disk)
    (h : (lookupD d m).isSome) : (lookupD (writeD n b d) m).isSome := by
  by_cases he : m = n
  · rw [he, lookupD_writeD_self]; rfl
  · rw [lookupD_writeD_ne n m b d he]; exact h

/-! ## Remote artifacts, requests and the run pipeline -/

/-- The `requests` exception taxonomy caught at lines 155-162 of main.py. -/
inductive ReqError
  | httpError
  | connectionError
  | timeoutError
  | requestException
deriving DecidableEq, Repr

/-- Response of `GET /files/{id}` (consumed by `process_file`): payloads
are modelled post-`b64decode`. -/
structure FileDetail where
  id : Nat
  name : String
  sha : Bytes
  source : Bytes
  draft : Bytes
deriving DecidableEq, Repr

/-- One entry of the `GET /files` listing, paired with the oracle outcome
of the per-id content request (`.error` models `raise_for_status`
raising on that request). -/
structure RemoteEntry where
  id : Nat
  name : String
  deployed : Bool
  fetched : Except ReqError FileDetail

/-- Effective payload (line 48): the draft payload when the published
`source` is empty, otherwise `source`. -/
def file_source (file : FileDetail) : Bytes :=
  if file.source = [] then file.draft else file.source

/-- Content identity check (lines 52-54): true iff the digest of the
local bytes differs from the remote digest. -/
def isChanged (hash : Bytes → Bytes) (localBytes : Bytes)
    (remoteDigest : Bytes) : Bool :=
  hash localBytes ≠ remoteDigest

/-- `write_file` (lines 62-65): text-mode write of the decoded string
`cs`, which stores its UTF-8 encoding. -/
def write_file (filename : String) (cs : List Nat) (disk : Disk) : Disk :=
  writeD filename (utf8Encode cs) disk

/-- `process_file` (lines 46-60): returns the updated disk and whether
the file was (re)written; `none` models the uncaught
`UnicodeDecodeError` from `b64decode(file_source).decode('utf-8')`. -/
def process_file (hash : Bytes → Bytes) (file : FileDetail) (disk : Disk) :
    Option (Disk × Bool) :=
  match lookupD disk file.name with
  | some bytes =>
    if isChanged hash bytes file.sha then
      (utf8Decode (file_source file)).map
        (fun cs => (write_file file.name cs disk, true))
    else some (disk, false)
  | none =>
    (utf8Decode (file_source file)).map
      (fun cs => (write_file file.name cs disk, true))

/-- Deployed listing entries, in listing order (filter at line 123). -/
def deployedEntries (files : List RemoteEntry) : List RemoteEntry :=
  files.filter (·.deployed)

/-- `files_to_backup` (line 125): names of the deployed artifacts. -/
def files_to_backup (files : List RemoteEntry) : List String :=
  (deployedEntries files).map (·.name)

/-- How the fetch-and-process loop aborts. -/
inductive AbortKind
  | req (e : ReqError)
  | decodeErr
deriving DecidableEq, Repr

/-- The fetch-and-process loop (lines 127-131), threading the disk, the
names written so far and the `commit_required` flag; an abort carries the
state already applied, since each file is written as soon as it is
processed. -/
def fetchLoop (hash : Bytes → Bytes) :
    List RemoteEntry → Disk → List String → Bool →
    Except (AbortKind × Disk × List String) (Disk × List String × Bool)
  | [], d, w, c => .ok (d, w, c)
  | e :: es, d, w, c =>
    match e.fetched with
    | .error err => .error (.req err, d, w)
    | .ok fd =>
      match process_file hash fd d with
      | none => .error (.decodeErr, d, w)
      | some dw =>
        fetchLoop hash es dw.1 (if dw.2 then w ++ [fd.name] else w)
          (c || dw.2)

/-- Orphan cleanup (lines 133-138): delete every file of the initial
directory snapshot whose name no deployed artifact bears; returns the new
disk and the deleted names in snapshot order. -/
def cleanup (backup : List String) : List String → Disk → Disk × List String
  | [], d => (d, [])
  | n :: ns, d =>
    if n ∈ backup then cleanup backup ns d
    else
      let res := cleanup backup ns (removeD n d)
      (res.1, n :: res.2)

/-- Outcome of a completed run. -/
structure RunDone where
  disk : Disk
  written : List String
  deleted : List String
  dirty : Bool
  commits : Nat
deriving DecidableEq, Repr

/-- Result of a run: normal completion, a caught `requests` error, or an
uncaught `UnicodeDecodeError`. -/
inductive RunResult
  | done (r : RunDone)
  | caught (e : ReqError) (disk : Disk) (written : List String)
  | uncaught (disk : Disk) (written : List String)
deriving DecidableEq, Repr

/-- The body of main's try-block after a successful listing (lines
111-153): snapshot the directory, process each deployed artifact, delete
orphans, then commit at most once.  `otherDirty` models
`repo.is_dirty(untracked_files=True)` at line 140. -/
def runRemote (hash : Bytes → Bytes) (files : List RemoteEntry)
    (disk0 : Disk) (otherDirty : Bool) : RunResult :=
  let files_on_disk := disk0.map Prod.fst
  let backup := files_to_backup files
  match fetchLoop hash (deployedEntries files) disk0 [] false with
  | .error (.req e, d, w) => .caught e d w
  | .error (.decodeErr, d, w) => .uncaught d w
  | .ok (d, w, c) =>
    let cd := cleanup backup files_on_disk d
    let commit_required := c || !cd.2.isEmpty
    .done { disk := cd.1, written := w, deleted := cd.2,
            dirty := commit_required,
            commits := if commit_required || otherDirty then 1 else 0 }

/-- A full run (lines 107-162): login, listing, then the reconciliation
body; `requests` exceptions raised by the login or listing requests are
caught by the handlers at lines 155-162 before any file is touched. -/
def run (hash : Bytes → Bytes) (login : Except ReqError Unit)
    (listing : Except ReqError (List RemoteEntry)) (disk0 : Disk)
    (otherDirty : Bool) : RunResult :=
  match login with
  | .error e => .caught e disk0 []
  | .ok _ =>
    match listing with
    | .error e => .caught e disk0 []
    | .ok files => runRemote hash files disk0 otherDirty

/-- Process exit status (lines 155-165): caught request errors are logged
and `main` returns normally, so the interpreter exits with 0; an uncaught
`UnicodeDecodeError` terminates the interpreter with a nonzero status. -/
def exitCode : RunResult → Nat
  | .done _ => 0
  | .caught _ _ _ => 0
  | .uncaught _ _ => 1

/-! ## Characterizations of the pipeline -/

/-- The write decision of `process_file`: write when the file is new or
its content digest differs from the remote digest. -/
def writeNeeded (hash : Bytes → Bytes) (file : FileDetail) (disk : Disk) :
    Bool :=
  match lookupD disk file.name with
  | some bytes => isChanged hash bytes file.sha
  | none => true

/-- Graph of `process_file`: it either skips (file present, digest equal)
or writes the decoded effective payload (file absent or digest differs). -/
theorem process_file_spec (hash : Bytes → Bytes) (file : FileDetail)
    (disk : Disk) (dw : Disk × Bool)
    (h : process_file hash file disk = some dw) :
    (dw = (disk, false) ∧ writeNeeded hash file disk = false) ∨
    (∃ cs, utf8Decode (file_source file) = some cs ∧
      dw = (write_file file.name cs disk, true) ∧
      writeNeeded hash file disk = true) := by
  rw [process_file] at h
  cases hl : lookupD disk file.name with
  | some bytes =>
    rw [hl] at h
    by_cases hc : isChanged hash bytes file.sha = true
    · simp only [if_pos hc, Option.map_eq_some'] at h
      obtain ⟨cs, hcs, hdw⟩ := h
      right
      exact ⟨cs, hcs, hdw.symm, by rw [writeNeeded, hl]; exact hc⟩
    · simp only [if_neg hc, Option.some.injEq] at h
      have h2 := h
      left
      refine ⟨h2.symm, ?_⟩
      rw [writeNeeded, hl]
      exact Bool.not_eq_true _ ▸ hc
  | none =>
    rw [hl] at h
    simp only [Option.map_eq_some'] at h
    obtain ⟨cs, hcs, hdw⟩ := h
    right
    exact ⟨cs, hcs, hdw.symm, by rw [writeNeeded, hl]⟩

/-- Frame property of the loop: a name that no processed artifact bears
is untouched. -/
theorem fetchLoop_frame (hash : Bytes → Bytes) (es : List RemoteEntry) :
    ∀ d w c d' w' c',
    fetchLoop hash es d w c = .ok (d', w', c') →
    ∀ n : String,
    (∀ e ∈ es, ∀ fd, e.fetched = .ok fd → fd.name ≠ n) →
    lookupD d' n = lookupD d n := by
  induction es with
  | nil =>
    intro d w c d' w' c' h n _
    rw [fetchLoop] at h
    injection h with h2
    simp only [Prod.mk.injEq] at h2
    obtain ⟨rfl, rfl, rfl⟩ := h2
    rfl
  | cons a es ih =>
    intro d w c d' w' c' h n hn
    rw [fetchLoop] at h
    cases hfa : a.fetched with
    | error err => rw [hfa] at h; exact Except.noConfusion h
    | ok fd =>
      simp only [hfa] at h
      cases hp : process_file hash fd d with
      | none => rw [hp] at h; exact Except.noConfusion h
      | some dw =>
        rw [hp] at h
        have hname : fd.name ≠ n := hn a (List.mem_cons_self a es) fd hfa
        have htail := ih dw.1 _ _ d' w' c' h n
          (fun e he fd2 hfd2 => hn e (List.mem_cons_of_mem a he) fd2 hfd2)
        rw [htail]
        rcases process_file_spec hash fd d dw hp with ⟨hdw, _⟩ | ⟨cs, _, hdw, _⟩
        · rw [hdw]
        · rw [hdw]
          simp only [write_file]
          exact lookupD_writeD_ne fd.name n (utf8Encode cs) d (fun hx => hname hx.symm)

/-- The loop only appends to the written list; the new names belong to
successfully fetched artifacts of the processed list, and the final
`commit_required` flag records whether anything new was written. -/
theorem fetchLoop_written (hash : Bytes → Bytes) (es : List RemoteEntry) :
    ∀ d w c d' w' c',
    fetchLoop hash es d w c = .ok (d', w', c') →
    ∃ nw, w' = w ++ nw ∧
      (∀ n ∈ nw, ∃ e, e ∈ es ∧ ∃ fd, e.fetched = .ok fd ∧ fd.name = n) ∧
      c' = (c || !nw.isEmpty) := by
  induction es with
  | nil =>
    intro d w c d' w' c' h
    rw [fetchLoop] at h
    injection h with h2
    simp only [Prod.mk.injEq] at h2
    obtain ⟨rfl, rfl, rfl⟩ := h2
    exact ⟨[], by simp, by simp, by simp⟩
  | cons a es ih =>
    intro d w c d' w' c' h
    rw [fetchLoop] at h
    cases hfa : a.fetched with
    | error err => rw [hfa] at h; exact Except.noConfusion h
    | ok fd =>
      simp only [hfa] at h
      cases hp : process_file hash fd d with
      | none => rw [hp] at h; exact Except.noConfusion h
      | some dw =>
        rw [hp] at h
        obtain ⟨nw, hw, hmem, hc⟩ := ih dw.1 _ _ d' w' c' h
        cases hwrote : dw.2 with
        | false =>
          rw [hwrote] at hw hc
          simp only [if_neg (by simp : ¬ (false = true))] at hw hc
          refine ⟨nw, hw, ?_, by simpa using hc⟩
          intro n hn
          obtain ⟨e, he, fd2, hfd2, hname⟩ := hmem n hn
          exact ⟨e, List.mem_cons_of_mem a he, fd2, hfd2, hname⟩
        | true =>
          rw [hwrote] at hw hc
          simp only [if_pos rfl] at hw hc
          refine ⟨fd.name :: nw, by simpa using hw, ?_, by simpa using hc⟩
          intro n hn
          rcases List.mem_cons.mp hn with hn | hn
          · exact ⟨a, List.mem_cons_self a es, fd, hfa, hn.symm⟩
          · obtain ⟨e, he, fd2, hfd2, hname⟩ := hmem n hn
            exact ⟨e, List.mem_cons_of_mem a he, fd2, hfd2, hname⟩

/-- Per-artifact characterization of the loop, under unique deployed
names and listing-consistent content names: an artifact is written (and
its decoded payload stored) exactly when its write decision against the
starting disk says so; otherwise its file is untouched. -/
theorem fetchLoop_spec (hash : Bytes → Bytes) (es : List RemoteEntry) :
    ∀ d w c d' w' c',
    fetchLoop hash es d w c = .ok (d', w', c') →
    (es.map (·.name)).Nodup →
    (∀ e ∈ es, ∀ fd, e.fetched = .ok fd → fd.name = e.name) →
    ∀ e ∈ es, ∀ fd, e.fetched = .ok fd →
    (writeNeeded hash fd d = true →
      e.name ∈ w' ∧ ∃ cs, utf8Decode (file_source fd) = some cs ∧
        lookupD d' e.name = some (utf8Encode cs)) ∧
    (writeNeeded hash fd d = false →
      (e.name ∈ w' ↔ e.name ∈ w) ∧ lookupD d' e.name = lookupD d e.name) := by
  induction es with
  | nil =>
    intro d w c d' w' c' h hnd hcons e he
    exact absurd he (List.not_mem_nil e)
  | cons a es ih =>
    intro d w c d' w' c' h hnd hcons e he fd hfd
    rw [fetchLoop] at h
    simp only [List.map_cons] at hnd
    obtain ⟨hanotin, hndtail⟩ := List.nodup_cons.mp hnd
    have hconstail : ∀ e ∈ es, ∀ fd, e.fetched = .ok fd → fd.name = e.name :=
      fun e2 he2 fd2 hfd2 => hcons e2 (List.mem_cons_of_mem a he2) fd2 hfd2
    cases hfa : a.fetched with
    | error err => rw [hfa] at h; exact Except.noConfusion h
    | ok afd =>
      simp only [hfa] at h
      have hconsa : afd.name = a.name :=
        hcons a (List.mem_cons_self a es) afd hfa
      cases hp : process_file hash afd d with
      | none => rw [hp] at h; exact Except.noConfusion h
      | some dw =>
        simp only [hp] at h
        rcases List.mem_cons.mp he with rfl | hetail
        · -- the artifact at the head of the loop (a has been merged into e)
          have hfd2 : afd = fd := by
            rw [hfa] at hfd
            injection hfd
          subst hfd2
          rcases process_file_spec hash afd d dw hp with
            ⟨hdw, hwn⟩ | ⟨cs, hcs, hdw, hwn⟩
          · -- skip: file current
            have hh : fetchLoop hash es d w c = .ok (d', w', c') := by
              simpa [hdw] using h
            constructor
            · intro hwt
              rw [hwn] at hwt
              exact absurd hwt (by simp)
            · intro _
              have hne : ∀ e2 ∈ es, ∀ fd2, e2.fetched = .ok fd2 →
                  fd2.name ≠ e.name := by
                intro e2 he2 fd2 hfd2 heq
                exact hanotin (heq ▸ hconstail e2 he2 fd2 hfd2 ▸
                  List.mem_map.mpr ⟨e2, he2, rfl⟩)
              obtain ⟨nw, hw', hmem, _⟩ :=
                fetchLoop_written hash es d w c d' w' c' hh
              constructor
              · rw [hw', List.mem_append]
                constructor
                · intro hor
                  rcases hor with hor | hor
                  · exact hor
                  · obtain ⟨e2, he2, fd2, hfd2, hname⟩ := hmem e.name hor
                    exact absurd rfl (hname ▸ hne e2 he2 fd2 hfd2)
                · exact Or.inl
              · exact fetchLoop_frame hash es d w c d' w' c' hh e.name hne
          · -- write: file new or digest differs
            rw [hconsa] at hdw
            have hh : fetchLoop hash es (write_file e.name cs d)
                (w ++ [afd.name]) true = .ok (d', w', c') := by
              simpa [hdw] using h
            constructor
            · intro _
              have hne : ∀ e2 ∈ es, ∀ fd2, e2.fetched = .ok fd2 →
                  fd2.name ≠ e.name := by
                intro e2 he2 fd2 hfd2 heq
                exact hanotin (heq ▸ hconstail e2 he2 fd2 hfd2 ▸
                  List.mem_map.mpr ⟨e2, he2, rfl⟩)
              obtain ⟨nw, hw', hmem, _⟩ := fetchLoop_written hash es
                (write_file e.name cs d) (w ++ [afd.name]) true d' w' c' hh
              refine ⟨?_, cs, hcs, ?_⟩
              · rw [hw', hconsa]
                simp
              · rw [fetchLoop_frame hash es (write_file e.name cs d)
                  (w ++ [afd.name]) true d' w' c' hh e.name hne]
                exact lookupD_writeD_self e.name (utf8Encode cs) d
            · intro hwf
              rw [hwn] at hwf
              exact absurd hwf (by simp)
        · -- an artifact deeper in the loop
          have hconse : fd.name = e.name := hcons e he fd hfd
          have hename : e.name ∈ es.map (·.name) :=
            List.mem_map.mpr ⟨e, hetail, rfl⟩
          have hne : e.name ≠ a.name := fun heq => hanotin (heq ▸ hename)
          rcases process_file_spec hash afd d dw hp with
            ⟨hdw, _⟩ | ⟨cs, hcs, hdw, _⟩
          · -- head skipped: tail state identical
            have hh : fetchLoop hash es d w c = .ok (d', w', c') := by
              simpa [hdw] using h
            exact ih d w c d' w' c' hh hndtail hconstail e hetail fd hfd
          · -- head written: tail runs on the once-written disk
            rw [hconsa] at hdw
            have hh : fetchLoop hash es (write_file a.name cs d)
                (w ++ [afd.name]) true = .ok (d', w', c') := by
              simpa [hdw] using h
            have hlook : lookupD (write_file a.name cs d) e.name =
                lookupD d e.name :=
              lookupD_writeD_ne a.name e.name (utf8Encode cs) d hne
            have hwn_eq : writeNeeded hash fd (write_file a.name cs d) =
                writeNeeded hash fd d := by
              unfold writeNeeded
              rw [hconse, hlook]
            have hmem_eq : e.name ∈ w ++ [afd.name] ↔ e.name ∈ w := by
              rw [List.mem_append, hconsa]
              simp [hne]
            have hih := ih (write_file a.name cs d) (w ++ [afd.name]) true
              d' w' c' hh hndtail hconstail e hetail fd hfd
            constructor
            · intro hwt
              exact hih.1 (hwn_eq.symm ▸ hwt)
            · intro hwf
              obtain ⟨hiff, hlk⟩ := hih.2 (hwn_eq.symm ▸ hwf)
              exact ⟨hiff.trans hmem_eq, hlk.trans hlook⟩

/-- The deleted list of the cleanup pass is exactly the snapshot names
that no deployed artifact bears, in snapshot order. -/
theorem cleanup_deleted (backup : List String) (snap : List String) :
    ∀ d : Disk, (cleanup backup snap d).2 =
      snap.filter (fun n => decide (n ∉ backup)) := by
  induction snap with
  | nil => intro d; rfl
  | cons m ns ih =>
    intro d
    by_cases hm : m ∈ backup
    · simp only [cleanup, if_pos hm, List.filter_cons]
      rw [if_neg (by simpa using hm)]
      exact ih d
    · simp only [cleanup, if_neg hm, List.filter_cons]
      rw [if_pos (by simpa using hm)]
      exact congrArg (m :: ·) (ih (removeD m d))

/-- Disk contents after the cleanup pass: snapshot orphans are gone,
everything else is untouched. -/
theorem cleanup_lookup (backup : List String) (snap : List String) :
    ∀ d : Disk, ∀ n : String,
    lookupD (cleanup backup snap d).1 n =
      if n ∈ snap ∧ n ∉ backup then none else lookupD d n := by
  induction snap with
  | nil =>
    intro d n
    rw [cleanup, if_neg (fun hx => List.not_mem_nil n hx.1)]
  | cons m ns ih =>
    intro d n
    by_cases hm : m ∈ backup
    · simp only [cleanup, if_pos hm]
      rw [ih d n]
      by_cases hc : n ∈ ns ∧ n ∉ backup
      · rw [if_pos hc, if_pos ⟨List.mem_cons_of_mem m hc.1, hc.2⟩]
      · rw [if_neg hc, if_neg ?_]
        intro hx
        rcases List.mem_cons.mp hx.1 with rfl | hmem
        · exact hx.2 hm
        · exact hc ⟨hmem, hx.2⟩
    · simp only [cleanup, if_neg hm]
      rw [ih (removeD m d) n]
      by_cases hc : n ∈ ns ∧ n ∉ backup
      · rw [if_pos hc, if_pos ⟨List.mem_cons_of_mem m hc.1, hc.2⟩]
      · rw [if_neg hc]
        by_cases hnm : n = m
        · subst hnm
          rw [lookupD_removeD_self, if_pos ⟨List.mem_cons_self n ns, hm⟩]
        · rw [lookupD_removeD_ne m n d hnm, if_neg ?_]
          intro hx
          rcases List.mem_cons.mp hx.1 with rfl | hmem
          · exact hnm rfl
          · exact hc ⟨hmem, hx.2⟩

/-- Decomposition of a completed run into its loop, cleanup and commit
pieces. -/
theorem runRemote_done (hash : Bytes → Bytes) (files : List RemoteEntry)
    (disk0 : Disk) (od : Bool) (r : RunDone)
    (h : runRemote hash files disk0 od = .done r) :
    ∃ d w c,
      fetchLoop hash (deployedEntries files) disk0 [] false =
        .ok (d, w, c) ∧
      r.disk =
        (cleanup (files_to_backup files) (disk0.map Prod.fst) d).1 ∧
      r.written = w ∧
      r.deleted =
        (cleanup (files_to_backup files) (disk0.map Prod.fst) d).2 ∧
      r.dirty = (c || !r.deleted.isEmpty) ∧
      r.commits = (if r.dirty || od then 1 else 0) ∧
      c = !w.isEmpty := by
  simp only [runRemote] at h
  cases hfl : fetchLoop hash (deployedEntries files) disk0 [] false with
  | error ab =>
    obtain ⟨k, d2, w2⟩ := ab
    cases k with
    | req e => simp only [hfl] at h; exact RunResult.noConfusion h
    | decodeErr => simp only [hfl] at h; exact RunResult.noConfusion h
  | ok t =>
    obtain ⟨d, w, c⟩ := t
    simp only [hfl] at h
    injection h with h2
    subst h2
    refine ⟨d, w, c, rfl, rfl, rfl, rfl, rfl, rfl, ?_⟩
    obtain ⟨nw, hw, _, hc⟩ :=
      fetchLoop_written hash (deployedEntries files) disk0 [] false
        d w c hfl
    rw [hw, hc]
    simp

theorem writeNeeded_none (hash : Bytes → Bytes) (fd : FileDetail)
    (disk : Disk) (h : lookupD disk fd.name = none) :
    writeNeeded hash fd disk = true := by
  rw [writeNeeded, h]

theorem writeNeeded_some (hash : Bytes → Bytes) (fd : FileDetail)
    (disk : Disk) (bytes : Bytes) (h : lookupD disk fd.name = some bytes) :
    writeNeeded hash fd disk = isChanged hash bytes fd.sha := by
  rw [writeNeeded, h]

/-- When the file exists and its digest matches, `process_file` leaves
the directory untouched and reports no write. -/
theorem process_file_skip (hash : Bytes → Bytes) (fd : FileDetail)
    (disk : Disk) (bytes : Bytes) (hl : lookupD disk fd.name = some bytes)
    (hc : isChanged hash bytes fd.sha = false) :
    process_file hash fd disk = some (disk, false) := by
  rw [process_file, hl]
  simp only [hc]
  rfl

/-- A loop over artifacts that are all current is a no-op. -/
theorem fetchLoop_noop (hash : Bytes → Bytes) (es : List RemoteEntry) :
    ∀ d : Disk,
    (∀ e ∈ es, ∃ fd, e.fetched = .ok fd ∧ ∃ bytes,
      lookupD d fd.name = some bytes ∧ isChanged hash bytes fd.sha = false) →
    ∀ w c, fetchLoop hash es d w c = .ok (d, w, c) := by
  induction es with
  | nil => intro d _ w c; rfl
  | cons a es ih =>
    intro d hcur w c
    obtain ⟨fd, hfd, bytes, hl, hc⟩ := hcur a (List.mem_cons_self a es)
    rw [fetchLoop]
    simp only [hfd, process_file_skip hash fd d bytes hl hc]
    simpa using ih d
      (fun e he => hcur e (List.mem_cons_of_mem a he)) w c

/-- Cleanup deletes nothing when every snapshot name is backed. -/
theorem cleanup_noop (backup : List String) (snap : List String)
    (d : Disk) (h : ∀ n ∈ snap, n ∈ backup) :
    cleanup backup snap d = (d, []) := by
  induction snap with
  | nil => rfl
  | cons m ns ih =>
    rw [cleanup, if_pos (h m (List.mem_cons_self m ns))]
    exact ih (fun n hn => h n (List.mem_cons_of_mem m hn))

theorem mem_files_to_backup (files : List RemoteEntry) (e : RemoteEntry)
    (he : e ∈ deployedEntries files) : e.name ∈ files_to_backup files :=
  List.mem_map.mpr ⟨e, he, rfl⟩

/-- Names outside the backup set are borne by no fetched artifact. -/
theorem not_backup_no_artifact (files : List RemoteEntry)
    (hcons : ∀ e ∈ files, ∀ fd, e.fetched = .ok fd → fd.name = e.name)
    (n : String) (hn : n ∉ files_to_backup files) :
    ∀ e ∈ deployedEntries files, ∀ fd, e.fetched = .ok fd →
      fd.name ≠ n := by
  intro e he fd hfd heq
  have hmem : e ∈ files := (List.mem_filter.mp he).1
  exact hn (heq ▸ hcons e hmem fd hfd ▸ mem_files_to_backup files e he)

/-! ## The claims -/

/-- C1: in a completed run with uniquely named, consistently fetched
deployed artifacts, a deployed artifact is written exactly when no local
file with its name exists or the digest of the existing bytes differs
from the remote digest; with equal digests the file's content survives
the run unchanged. -/
theorem claim1_write_iff (hash : Bytes → Bytes) (files : List RemoteEntry)
    (disk0 : Disk) (od : Bool) (r : RunDone)
    (hrun : runRemote hash files disk0 od = .done r)
    (hnd : (files_to_backup files).Nodup)
    (hcons : ∀ e ∈ files, ∀ fd, e.fetched = .ok fd → fd.name = e.name)
    (e : RemoteEntry) (he : e ∈ files) (hdep : e.deployed = true)
    (fd : FileDetail) (hfd : e.fetched = .ok fd) :
    (lookupD disk0 e.name = none → e.name ∈ r.written) ∧
    (∀ bytes, lookupD disk0 e.name = some bytes →
      (e.name ∈ r.written ↔ hash bytes ≠ fd.sha)) ∧
    (∀ bytes, lookupD disk0 e.name = some bytes → hash bytes = fd.sha →
      (e.name ∉ r.written ∧ lookupD r.disk e.name = some bytes)) := by
  obtain ⟨d, w, c, hfl, hdisk, hwr, hdel, hdirty, hcom, hc⟩ :=
    runRemote_done hash files disk0 od r hrun
  have he2 : e ∈ deployedEntries files := List.mem_filter.mpr ⟨he, hdep⟩
  have hcons2 : ∀ e ∈ deployedEntries files, ∀ fd, e.fetched = .ok fd →
      fd.name = e.name :=
    fun e2 he2 => hcons e2 (List.mem_filter.mp he2).1
  have hconse : fd.name = e.name := hcons e he fd hfd
  have hspec := fetchLoop_spec hash (deployedEntries files) disk0 [] false
    d w c hfl hnd hcons2 e he2 fd hfd
  refine ⟨?_, ?_, ?_⟩
  · intro hnone
    rw [hwr]
    exact (hspec.1 (writeNeeded_none hash fd disk0 (hconse ▸ hnone))).1
  · intro bytes hsome
    have hwn := writeNeeded_some hash fd disk0 bytes (hconse ▸ hsome)
    rw [hwr]
    by_cases hch : hash bytes = fd.sha
    · have hwn2 : writeNeeded hash fd disk0 = false := by
        rw [hwn, isChanged]
        simp [hch]
      obtain ⟨hiff, _⟩ := hspec.2 hwn2
      simp only [List.mem_nil_iff] at hiff
      constructor
      · intro hmem
        exact absurd (hiff.mp hmem) (fun hx => hx)
      · intro hne
        exact absurd hch hne
    · have hwn2 : writeNeeded hash fd disk0 = true := by
        rw [hwn, isChanged]
        simp [hch]
      constructor
      · intro _
        exact hch
      · intro _
        exact (hspec.1 hwn2).1
  · intro bytes hsome hch
    have hwn2 : writeNeeded hash fd disk0 = false := by
      rw [writeNeeded_some hash fd disk0 bytes (hconse ▸ hsome), isChanged]
      simp [hch]
    obtain ⟨hiff, hlk⟩ := hspec.2 hwn2
    constructor
    · rw [hwr]
      intro hmem
      simpa using hiff.mp hmem
    · rw [hdisk, cleanup_lookup, if_neg ?_, hlk, hsome]
      intro hx
      exact hx.2 (mem_files_to_backup files e he2)

/-- Replace the content-request outcome of a non-deployed entry by a
failure; deployed entries are untouched. -/
def blankNonDeployed (e : RemoteEntry) : RemoteEntry :=
  if e.deployed then e else ⟨e.id, e.name, e.deployed, .error .requestException⟩

theorem deployedEntries_blank (files : List RemoteEntry) :
    deployedEntries (files.map blankNonDeployed) = deployedEntries files := by
  induction files with
  | nil => rfl
  | cons a files ih =>
    simp only [List.map_cons, deployedEntries, List.filter_cons] at ih ⊢
    cases ha : a.deployed with
    | true =>
      rw [blankNonDeployed, if_pos ha]
      rw [ha]
      simpa [deployedEntries] using congrArg (a :: ·) ih
    | false =>
      rw [blankNonDeployed, if_neg (by simp [ha])]
      simpa [ha, deployedEntries] using ih

theorem files_to_backup_blank (files : List RemoteEntry) :
    files_to_backup (files.map blankNonDeployed) = files_to_backup files := by
  rw [files_to_backup, files_to_backup, deployedEntries_blank]

/-- C2: in a completed run the deleted paths are exactly the snapshot
names that belong to no deployed artifact; every written name belongs to
a deployed artifact; and the whole run is unchanged if the content
responses of all non-deployed artifacts are discarded (they are never
fetched and never written). -/
theorem claim2_deletion_set (hash : Bytes → Bytes)
    (files : List RemoteEntry) (disk0 : Disk) (od : Bool) (r : RunDone)
    (hrun : runRemote hash files disk0 od = .done r)
    (hcons : ∀ e ∈ files, ∀ fd, e.fetched = .ok fd → fd.name = e.name) :
    r.deleted = (disk0.map Prod.fst).filter
      (fun n => decide (n ∉ files_to_backup files)) ∧
    (∀ n ∈ r.written, n ∈ files_to_backup files) ∧
    runRemote hash (files.map blankNonDeployed) disk0 od =
      runRemote hash files disk0 od := by
  obtain ⟨d, w, c, hfl, hdisk, hwr, hdel, hdirty, hcom, hc⟩ :=
    runRemote_done hash files disk0 od r hrun
  refine ⟨?_, ?_, ?_⟩
  · rw [hdel, cleanup_deleted]
  · intro n hn
    rw [hwr] at hn
    obtain ⟨nw, hw, hmem, _⟩ :=
      fetchLoop_written hash (deployedEntries files) disk0 [] false
        d w c hfl
    rw [hw] at hn
    simp only [List.nil_append] at hn
    obtain ⟨e, he, fd, hfd, hname⟩ := hmem n hn
    have : fd.name = e.name := hcons e (List.mem_filter.mp he).1 fd hfd
    exact hname ▸ this ▸ mem_files_to_backup files e he
  · rw [runRemote, runRemote, deployedEntries_blank, files_to_backup_blank]

/-- C3: a completed run commits exactly once when the plan is dirty
(some write or deletion happened) or the tree is otherwise dirty, and
commits nothing on a clean no-op run. -/
theorem claim3_commit_gating (hash : Bytes → Bytes)
    (files : List RemoteEntry) (disk0 : Disk) (od : Bool) (r : RunDone)
    (hrun : runRemote hash files disk0 od = .done r) :
    (r.dirty = true ↔ (r.written ≠ [] ∨ r.deleted ≠ [])) ∧
    r.commits = (if r.dirty || od then 1 else 0) ∧
    (r.dirty = false → od = false → r.commits = 0) ∧
    (r.dirty = true ∨ od = true → r.commits = 1) := by
  obtain ⟨d, w, c, hfl, hdisk, hwr, hdel, hdirty, hcom, hc⟩ :=
    runRemote_done hash files disk0 od r hrun
  have hiff : r.dirty = true ↔ (r.written ≠ [] ∨ r.deleted ≠ []) := by
    rw [hdirty, hc, hwr]
    constructor
    · intro hx
      rcases Bool.or_eq_true_iff.mp hx with hx | hx
      · left
        intro hnil
        rw [hnil] at hx
        simp at hx
      · right
        intro hnil
        rw [hnil] at hx
        simp at hx
    · intro hx
      rcases hx with hx | hx
      · exact Bool.or_eq_true_iff.mpr (Or.inl (by simpa using hx))
      · exact Bool.or_eq_true_iff.mpr (Or.inr (by simpa using hx))
  refine ⟨hiff, hcom, ?_, ?_⟩
  · intro hdf hodf
    rw [hcom, hdf, hodf]
    rfl
  · intro hor
    rw [hcom]
    rcases hor with hx | hx
    · rw [hx]
      rfl
    · rw [hx]
      simp

/-! ## Concrete fixtures for the witnesses -/

/-- A concrete digest function for witness runs; the digest of a byte
sequence is the sequence itself, which is trivially injective. -/
def wHash : Bytes → Bytes := fun b => b

/-- Witness artifact detail: name `a.vcl`, payload `[65]`, digest equal
to the payload under `wHash`. -/
def wDetailA : FileDetail := ⟨1, "a.vcl", [65], [65], []⟩

/-- Witness listing entry for `wDetailA`, deployed, fetch succeeding. -/
def wA : RemoteEntry := ⟨1, "a.vcl", true, .ok wDetailA⟩

/-- Witness starting disk: `a.vcl` current, `c.vcl` an orphan. -/
def wDisk0 : Disk := [("a.vcl", [65]), ("c.vcl", [1, 2])]

/-- The completed-run outcome of the witness run. -/
def wR1 : RunDone :=
  ⟨[("a.vcl", [65])], [], ["c.vcl"], true, 1⟩

theorem wRun_eq : runRemote wHash [wA] wDisk0 false = .done wR1 := by
  decide

/-- Witness for C1: the hypotheses of `claim1_write_iff` hold on the
concrete run `wRun_eq` and the conclusion evaluates there. -/
theorem claim1_write_iff_witness :
    (lookupD wDisk0 wA.name = none → wA.name ∈ wR1.written) ∧
    (∀ bytes, lookupD wDisk0 wA.name = some bytes →
      (wA.name ∈ wR1.written ↔ wHash bytes ≠ wDetailA.sha)) ∧
    (∀ bytes, lookupD wDisk0 wA.name = some bytes →
      wHash bytes = wDetailA.sha →
      (wA.name ∉ wR1.written ∧ lookupD wR1.disk wA.name = some bytes)) :=
  claim1_write_iff wHash [wA] wDisk0 false wR1 wRun_eq
    (by decide)
    (by
      intro e he fd hfd
      rw [List.mem_singleton] at he
      subst he
      have hfd2 : Except.ok (ε := ReqError) wDetailA = Except.ok fd := hfd
      injection hfd2 with h2
      rw [← h2]
      rfl)
    wA (List.mem_singleton.mpr rfl) rfl wDetailA rfl

/-- Witness for C2: the hypotheses of `claim2_deletion_set` hold on the
concrete run `wRun_eq` and the conclusion evaluates there. -/
theorem claim2_deletion_set_witness :
    wR1.deleted = (wDisk0.map Prod.fst).filter
      (fun n => decide (n ∉ files_to_backup [wA])) ∧
    (∀ n ∈ wR1.written, n ∈ files_to_backup [wA]) ∧
    runRemote wHash ([wA].map blankNonDeployed) wDisk0 false =
      runRemote wHash [wA] wDisk0 false :=
  claim2_deletion_set wHash [wA] wDisk0 false wR1 wRun_eq
    (by
      intro e he fd hfd
      rw [List.mem_singleton] at he
      subst he
      have hfd2 : Except.ok (ε := ReqError) wDetailA = Except.ok fd := hfd
      injection hfd2 with h2
      rw [← h2]
      rfl)

/-- Witness for C3: the hypotheses of `claim3_commit_gating` hold on the
concrete run `wRun_eq` and the conclusion evaluates there. -/
theorem claim3_commit_gating_witness :
    (wR1.dirty = true ↔ (wR1.written ≠ [] ∨ wR1.deleted ≠ [])) ∧
    wR1.commits = (if wR1.dirty || false then 1 else 0) ∧
    (wR1.dirty = false → false = false → wR1.commits = 0) ∧
    (wR1.dirty = true ∨ false = true → wR1.commits = 1) :=
  claim3_commit_gating wHash [wA] wDisk0 false wR1 wRun_eq

theorem writeNeeded_false_elim (hash : Bytes → Bytes) (fd : FileDetail)
    (disk : Disk) (h : writeNeeded hash fd disk = false) :
    ∃ bytes, lookupD disk fd.name = some bytes ∧ hash bytes = fd.sha := by
  rw [writeNeeded] at h
  cases hl : lookupD disk fd.name with
  | none =>
    simp only [hl] at h
    exact Bool.noConfusion h
  | some bytes =>
    simp only [hl] at h
    refine ⟨bytes, rfl, ?_⟩
    rw [isChanged] at h
    simpa using h

/-- A completed loop fetched every processed artifact successfully. -/
theorem fetchLoop_all_ok (hash : Bytes → Bytes) (es : List RemoteEntry) :
    ∀ d w c d' w' c', fetchLoop hash es d w c = .ok (d', w', c') →
    ∀ e ∈ es, ∃ fd, e.fetched = .ok fd := by
  induction es with
  | nil =>
    intro d w c d' w' c' _ e he
    exact absurd he (List.not_mem_nil e)
  | cons a es ih =>
    intro d w c d' w' c' h e he
    rw [fetchLoop] at h
    cases hfa : a.fetched with
    | error err => rw [hfa] at h; exact Except.noConfusion h
    | ok fd =>
      simp only [hfa] at h
      cases hp : process_file hash fd d with
      | none => rw [hp] at h; exact Except.noConfusion h
      | some dw =>
        simp only [hp] at h
        rcases List.mem_cons.mp he with rfl | hetail
        · exact ⟨fd, hfa⟩
        · exact ih dw.1 _ _ d' w' c' h e hetail

/-- C4: reconciliation is idempotent.  If a run completes and every
deployed artifact's remote digest matches the digest of its effective
payload (a well-formed remote snapshot), a second run over the resulting
disk writes nothing, deletes nothing, reports a clean plan and commits
nothing. -/
theorem claim4_idempotent (hash : Bytes → Bytes) (files : List RemoteEntry)
    (disk0 : Disk) (od : Bool) (r1 : RunDone)
    (hrun : runRemote hash files disk0 od = .done r1)
    (hnd : (files_to_backup files).Nodup)
    (hcons : ∀ e ∈ files, ∀ fd, e.fetched = .ok fd → fd.name = e.name)
    (hwf : ∀ e ∈ files, e.deployed = true → ∀ fd, e.fetched = .ok fd →
      fd.sha = hash (file_source fd) ∧
      (utf8Decode (file_source fd)).isSome) :
    runRemote hash files r1.disk false =
      .done ⟨r1.disk, [], [], false, 0⟩ := by
  obtain ⟨d, w, c, hfl, hdisk, hwr, hdel, hdirty, hcom, hc⟩ :=
    runRemote_done hash files disk0 od r1 hrun
  have hcons2 : ∀ e ∈ deployedEntries files, ∀ fd, e.fetched = .ok fd →
      fd.name = e.name :=
    fun e2 he2 => hcons e2 (List.mem_filter.mp he2).1
  have hA : ∀ n, n ∉ files_to_backup files → lookupD r1.disk n = none := by
    intro n hn
    rw [hdisk, cleanup_lookup]
    by_cases hsnap : n ∈ disk0.map Prod.fst
    · rw [if_pos ⟨hsnap, hn⟩]
    · rw [if_neg (fun hx => hsnap hx.1)]
      rw [fetchLoop_frame hash (deployedEntries files) disk0 [] false
        d w c hfl n (not_backup_no_artifact files hcons n hn)]
      exact (lookupD_eq_none_iff disk0 n).mpr hsnap
  have hB : ∀ e ∈ deployedEntries files, ∀ fd, e.fetched = .ok fd →
      ∃ bytes, lookupD r1.disk e.name = some bytes ∧
        hash bytes = fd.sha := by
    intro e he fd hfd
    have hmemf : e ∈ files := (List.mem_filter.mp he).1
    have hdep : e.deployed = true := by
      simpa using (List.mem_filter.mp he).2
    have hsha : fd.sha = hash (file_source fd) :=
      (hwf e hmemf hdep fd hfd).1
    have hspec := fetchLoop_spec hash (deployedEntries files) disk0 []
      false d w c hfl hnd hcons2 e he fd hfd
    have hback : e.name ∈ files_to_backup files :=
      mem_files_to_backup files e he
    have hcl : lookupD r1.disk e.name = lookupD d e.name := by
      rw [hdisk, cleanup_lookup, if_neg (fun hx => hx.2 hback)]
    cases hwn : writeNeeded hash fd disk0 with
    | true =>
      obtain ⟨_, cs, hcs, hlk⟩ := hspec.1 hwn
      refine ⟨utf8Encode cs, by rw [hcl, hlk], ?_⟩
      rw [utf8Encode_utf8Decode (file_source fd) cs hcs]
      exact hsha.symm
    | false =>
      obtain ⟨_, hlk⟩ := hspec.2 hwn
      obtain ⟨bytes, hl0, hsha0⟩ := writeNeeded_false_elim hash fd disk0 hwn
      have hconse : fd.name = e.name := hcons2 e he fd hfd
      refine ⟨bytes, ?_, hsha0⟩
      rw [hcl, hlk, ← hconse, hl0]
  have hC : ∀ e ∈ deployedEntries files, ∃ fd, e.fetched = .ok fd ∧
      ∃ bytes, lookupD r1.disk fd.name = some bytes ∧
        isChanged hash bytes fd.sha = false := by
    intro e he
    obtain ⟨fd, hfd⟩ := fetchLoop_all_ok hash (deployedEntries files)
      disk0 [] false d w c hfl e he
    obtain ⟨bytes, hlk, hsha⟩ := hB e he fd hfd
    have hconse : fd.name = e.name := hcons2 e he fd hfd
    refine ⟨fd, hfd, bytes, by rw [hconse]; exact hlk, ?_⟩
    simp [isChanged, hsha]
  have hfl2 : fetchLoop hash (deployedEntries files) r1.disk [] false =
      .ok (r1.disk, [], false) :=
    fetchLoop_noop hash (deployedEntries files) r1.disk hC [] false
  have hsnap2 : ∀ n ∈ r1.disk.map Prod.fst, n ∈ files_to_backup files := by
    intro n hn
    by_contra hnb
    have hx := hA n hnb
    rw [lookupD_eq_none_iff] at hx
    exact hx hn
  have hcln : cleanup (files_to_backup files) (r1.disk.map Prod.fst)
      r1.disk = (r1.disk, []) :=
    cleanup_noop (files_to_backup files) (r1.disk.map Prod.fst) r1.disk
      hsnap2
  simp only [runRemote, hfl2, hcln]
  rfl

/-- Witness for C4: the hypotheses of `claim4_idempotent` hold on the
concrete run `wRun_eq`, and a second run over the resulting disk is a
clean no-op. -/
theorem claim4_idempotent_witness :
    runRemote wHash [wA] wR1.disk false =
      .done ⟨wR1.disk, [], [], false, 0⟩ :=
  claim4_idempotent wHash [wA] wDisk0 false wR1 wRun_eq
    (by decide)
    (by
      intro e he fd hfd
      rw [List.mem_singleton] at he
      subst he
      have hfd2 : Except.ok (ε := ReqError) wDetailA = Except.ok fd := hfd
      injection hfd2 with h2
      rw [← h2]
      rfl)
    (by
      intro e he _ fd hfd
      rw [List.mem_singleton] at he
      subst he
      have hfd2 : Except.ok (ε := ReqError) wDetailA = Except.ok fd := hfd
      injection hfd2 with h2
      subst h2
      exact ⟨rfl, by decide⟩)

/-- Split a character list at `/` separators. -/
def splitSlash : List Char → List (List Char)
  | [] => [[]]
  | ch :: rest =>
    if ch = '/' then [] :: splitSlash rest
    else
      match splitSlash rest with
      | seg :: segs => (ch :: seg) :: segs
      | [] => [[ch]]

/-- Does a path name contain a `..` segment? -/
def hasTraversalSegment (s : String) : Bool :=
  (splitSlash s.data).contains ['.', '.']

/-- Artifact bearing a path-traversal name, used to probe C5. -/
def wTravDetail : FileDetail := ⟨7, "../escape", [104, 105], [104, 105], []⟩

/-- Deployed listing entry for `wTravDetail`. -/
def wTrav : RemoteEntry := ⟨7, "../escape", true, .ok wTravDetail⟩

/-- C5 (the code has no such check): an artifact whose name contains a
path-traversal segment is neither rejected nor sanitized; the run
completes successfully, writes under the raw traversal name (which
`os.path.join` resolves outside the mirror root) and commits — a silent
success instead of the claimed fatal validation failure. -/
theorem claim5_no_traversal_check :
    hasTraversalSegment "../escape" = true ∧
    runRemote wHash [wTrav] [] false =
      .done ⟨[("../escape", [104, 105])], ["../escape"], [], true, 1⟩ := by
  constructor
  · decide
  · decide

/-- Deployed artifact whose fetch succeeds and which is new locally. -/
def wNewDetail : FileDetail := ⟨3, "n.vcl", [110], [110], []⟩

/-- Listing entry for `wNewDetail`. -/
def wNew : RemoteEntry := ⟨3, "n.vcl", true, .ok wNewDetail⟩

/-- Deployed listing entry whose content request fails. -/
def wBroken : RemoteEntry := ⟨2, "b.vcl", true, .error .httpError⟩

/-- C6 counterexample: one artifact is fetched and written, then the
next artifact's retrieval fails; the run aborts without a commit, but
the first file has already been written, so the local state is not left
as it was before the run. -/
theorem claim6_counterexample :
    runRemote wHash [wNew, wBroken] [] false =
      .caught .httpError [("n.vcl", [110])] ["n.vcl"] ∧
    ([("n.vcl", [110])] : Disk) ≠ ([] : Disk) := by
  constructor
  · decide
  · decide

/-- An aborted loop only extends the written list, and leaves every name
outside the final written list untouched. -/
theorem fetchLoop_abort_frame (hash : Bytes → Bytes)
    (es : List RemoteEntry) : ∀ d w c k d' w',
    fetchLoop hash es d w c = .error (k, d', w') →
    (∃ nw, w' = w ++ nw) ∧
    (∀ n, n ∉ w' → lookupD d' n = lookupD d n) := by
  induction es with
  | nil =>
    intro d w c k d' w' h
    rw [fetchLoop] at h
    exact Except.noConfusion h
  | cons a es ih =>
    intro d w c k d' w' h
    rw [fetchLoop] at h
    cases hfa : a.fetched with
    | error err =>
      rw [hfa] at h
      have h2 : (AbortKind.req err, d, w) = (k, d', w') := by
        injection h
      obtain ⟨h3, h4, h5⟩ := Prod.mk.injEq .. ▸ (Prod.mk.injEq .. ▸ h2)
      refine ⟨⟨[], by rw [← h5, List.append_nil]⟩, ?_⟩
      intro n _
      rw [← h4]
    | ok fd =>
      simp only [hfa] at h
      cases hp : process_file hash fd d with
      | none =>
        rw [hp] at h
        have h2 : (AbortKind.decodeErr, d, w) = (k, d', w') := by
          injection h
        obtain ⟨h3, h4, h5⟩ := Prod.mk.injEq .. ▸ (Prod.mk.injEq .. ▸ h2)
        refine ⟨⟨[], by rw [← h5, List.append_nil]⟩, ?_⟩
        intro n _
        rw [← h4]
      | some dw =>
        simp only [hp] at h
        obtain ⟨⟨nw, hnw⟩, hframe⟩ := ih dw.1 _ _ k d' w' h
        rcases process_file_spec hash fd d dw hp with
          ⟨hdw, _⟩ | ⟨cs, hcs, hdw, _⟩
        · simp only [hdw] at hnw hframe
          simp at hnw hframe
          refine ⟨⟨nw, hnw⟩, ?_⟩
          intro n hn
          exact hframe n hn
        · simp only [hdw] at hnw hframe
          simp at hnw hframe
          constructor
          · exact ⟨fd.name :: nw, by simpa using hnw⟩
          · intro n hn
            have hwmem : fd.name ∈ w' := by
              rw [hnw]
              simp
            have hne : n ≠ fd.name := fun hx => hn (hx ▸ hwmem)
            rw [hframe n hn]
            simp only [write_file]
            exact lookupD_writeD_ne fd.name n (utf8Encode cs) d hne

/-- C6 (amended): when the retrieval of a deployed artifact fails, the
run aborts with the error caught and exit code 0: no commit is created
and no deletion is performed, and every file not written earlier in the
run is unchanged — but files already processed before the failure remain
written. -/
theorem claim6_abort_no_commit (hash : Bytes → Bytes)
    (files : List RemoteEntry) (disk0 : Disk) (od : Bool) (e : ReqError)
    (dAb : Disk) (wAb : List String)
    (hrun : runRemote hash files disk0 od = .caught e dAb wAb) :
    exitCode (runRemote hash files disk0 od) = 0 ∧
    (∀ n, n ∉ wAb → lookupD dAb n = lookupD disk0 n) := by
  refine ⟨by rw [hrun]; rfl, ?_⟩
  simp only [runRemote] at hrun
  cases hfl : fetchLoop hash (deployedEntries files) disk0 [] false with
  | error ab =>
    obtain ⟨k, d2, w2⟩ := ab
    cases k with
    | req e2 =>
      simp only [hfl] at hrun
      injection hrun with h1 h2 h3
      subst h2; subst h3
      exact (fetchLoop_abort_frame hash (deployedEntries files) disk0 []
        false (.req e2) d2 w2 hfl).2
    | decodeErr =>
      simp only [hfl] at hrun
      exact RunResult.noConfusion hrun
  | ok t =>
    obtain ⟨d, w, c⟩ := t
    simp only [hfl] at hrun
    exact RunResult.noConfusion hrun

/-- Witness for C6: the amended statement applied to the concrete
aborted run of `claim6_counterexample`. -/
theorem claim6_abort_no_commit_witness :
    exitCode (runRemote wHash [wNew, wBroken] [] false) = 0 ∧
    (∀ n, n ∉ ["n.vcl"] → lookupD [("n.vcl", [110])] n =
      lookupD ([] : Disk) n) :=
  claim6_abort_no_commit wHash [wNew, wBroken] [] false .httpError
    [("n.vcl", [110])] ["n.vcl"] (by decide)

/-- C7: the effective payload is the published payload when that is
non-empty and the draft payload otherwise; an artifact whose effective
payload is empty is still written as an empty file (both when the file
is new and when its digest differs), not skipped. -/
theorem claim7_effective_payload (hash : Bytes → Bytes) (fd : FileDetail)
    (disk : Disk) :
    (fd.source ≠ [] → file_source fd = fd.source) ∧
    (fd.source = [] → file_source fd = fd.draft) ∧
    (file_source fd = [] → lookupD disk fd.name = none →
      process_file hash fd disk = some (writeD fd.name [] disk, true) ∧
      lookupD (writeD fd.name [] disk) fd.name = some []) ∧
    (file_source fd = [] → ∀ bytes, lookupD disk fd.name = some bytes →
      isChanged hash bytes fd.sha = true →
      process_file hash fd disk = some (writeD fd.name [] disk, true)) := by
  refine ⟨?_, ?_, ?_, ?_⟩
  · intro h
    rw [file_source, if_neg h]
  · intro h
    rw [file_source, if_pos h]
  · intro hsrc hl
    rw [process_file, hl, hsrc]
    exact ⟨rfl, lookupD_writeD_self fd.name [] disk⟩
  · intro hsrc bytes hl hch
    rw [process_file, hl]
    simp only [hch, hsrc]
    rfl

/-- Artifact with empty published and draft payloads. -/
def wEmptyDetail : FileDetail := ⟨4, "e.vcl", [], [], []⟩

/-- Witness for C7 at a concrete artifact with empty payloads. -/
theorem claim7_effective_payload_witness :
    (wEmptyDetail.source ≠ [] →
      file_source wEmptyDetail = wEmptyDetail.source) ∧
    (wEmptyDetail.source = [] →
      file_source wEmptyDetail = wEmptyDetail.draft) ∧
    (file_source wEmptyDetail = [] →
      lookupD [] wEmptyDetail.name = none →
      process_file wHash wEmptyDetail [] =
        some (writeD wEmptyDetail.name [] [], true) ∧
      lookupD (writeD wEmptyDetail.name [] []) wEmptyDetail.name =
        some []) ∧
    (file_source wEmptyDetail = [] → ∀ bytes,
      lookupD [] wEmptyDetail.name = some bytes →
      isChanged wHash bytes wEmptyDetail.sha = true →
      process_file wHash wEmptyDetail [] =
        some (writeD wEmptyDetail.name [] [], true)) :=
  claim7_effective_payload wHash wEmptyDetail []

/-- C8: digest sensitivity — with an injective digest (the spec treats
SHA-256 as collision-free), two distinct payloads always compare as
changed, and the change check is true exactly when the digests differ. -/
theorem claim8_digest_sensitivity (hash : Bytes → Bytes)
    (hinj : Function.Injective hash) (p1 p2 : Bytes) (hne : p1 ≠ p2) :
    isChanged hash p1 (hash p2) = true ∧
    (∀ localBytes remoteDigest : Bytes,
      isChanged hash localBytes remoteDigest = true ↔
        hash localBytes ≠ remoteDigest) := by
  constructor
  · rw [isChanged]
    simpa using fun hx => hne (hinj hx)
  · intro lb rd
    rw [isChanged]
    simp

/-- Witness for C8 with the injective digest `wHash` and payloads `[0]`
and `[1]`. -/
theorem claim8_digest_sensitivity_witness :
    isChanged wHash [0] (wHash [1]) = true ∧
    (∀ localBytes remoteDigest : Bytes,
      isChanged wHash localBytes remoteDigest = true ↔
        wHash localBytes ≠ remoteDigest) :=
  claim8_digest_sensitivity wHash (fun _ _ h => h) [0] [1] (by decide)

theorem deployedEntries_append (es1 es2 : List RemoteEntry) :
    deployedEntries (es1 ++ es2) =
      deployedEntries es1 ++ deployedEntries es2 := by
  rw [deployedEntries, deployedEntries, deployedEntries, List.filter_append]

theorem deployedEntries_cons_deployed (e : RemoteEntry)
    (es : List RemoteEntry) (h : e.deployed = true) :
    deployedEntries (e :: es) = e :: deployedEntries es := by
  rw [deployedEntries, List.filter_cons, if_pos (by simpa using h)]
  rfl

/-- The loop over a concatenation runs the first part and, if it does
not abort, continues with the second from the reached state. -/
theorem fetchLoop_append (hash : Bytes → Bytes)
    (es1 es2 : List RemoteEntry) : ∀ d w c d1 w1 c1,
    fetchLoop hash es1 d w c = .ok (d1, w1, c1) →
    fetchLoop hash (es1 ++ es2) d w c = fetchLoop hash es2 d1 w1 c1 := by
  induction es1 with
  | nil =>
    intro d w c d1 w1 c1 h
    rw [fetchLoop] at h
    injection h with h2
    simp only [Prod.mk.injEq] at h2
    obtain ⟨rfl, rfl, rfl⟩ := h2
    rw [List.nil_append]
  | cons a es ih =>
    intro d w c d1 w1 c1 h
    rw [fetchLoop] at h
    rw [List.cons_append, fetchLoop]
    cases hfa : a.fetched with
    | error err => rw [hfa] at h; exact Except.noConfusion h
    | ok fd =>
      simp only [hfa] at h ⊢
      cases hp : process_file hash fd d with
      | none => rw [hp] at h; exact Except.noConfusion h
      | some dw =>
        simp only [hp] at h ⊢
        exact ih dw.1 _ _ d1 w1 c1 h

/-- A write-path artifact whose payload does not decode makes
`process_file` raise. -/
theorem process_file_decode_fail (hash : Bytes → Bytes) (fd : FileDetail)
    (disk : Disk) (hwn : writeNeeded hash fd disk = true)
    (hbad : utf8Decode (file_source fd) = none) :
    process_file hash fd disk = none := by
  rw [process_file]
  cases hl : lookupD disk fd.name with
  | none => simp [hbad]
  | some bytes =>
    have hch : isChanged hash bytes fd.sha = true := by
      rw [writeNeeded] at hwn
      simpa [hl] using hwn
    simp [hch, hbad]

/-- Names already written stay present on disk through the rest of the
loop. -/
theorem fetchLoop_written_present (hash : Bytes → Bytes)
    (es : List RemoteEntry) : ∀ d w c d' w' c',
    fetchLoop hash es d w c = .ok (d', w', c') →
    (∀ n ∈ w, (lookupD d n).isSome) →
    ∀ n ∈ w', (lookupD d' n).isSome := by
  induction es with
  | nil =>
    intro d w c d' w' c' h hw
    rw [fetchLoop] at h
    injection h with h2
    simp only [Prod.mk.injEq] at h2
    obtain ⟨rfl, rfl, rfl⟩ := h2
    exact hw
  | cons a es ih =>
    intro d w c d' w' c' h hw
    rw [fetchLoop] at h
    cases hfa : a.fetched with
    | error err => rw [hfa] at h; exact Except.noConfusion h
    | ok fd =>
      simp only [hfa] at h
      cases hp : process_file hash fd d with
      | none => rw [hp] at h; exact Except.noConfusion h
      | some dw =>
        simp only [hp] at h
        rcases process_file_spec hash fd d dw hp with
          ⟨hdw, _⟩ | ⟨cs, hcs, hdw, _⟩
        · simp only [hdw] at h
          simp at h
          exact ih d w _ d' w' c' h hw
        · simp only [hdw] at h
          simp at h
          refine ih (write_file fd.name cs d) (w ++ [fd.name]) _
            d' w' c' h ?_
          intro n hn
          rcases List.mem_append.mp hn with hn | hn
          · exact lookupD_writeD_isSome fd.name n (utf8Encode cs) d (hw n hn)
          · rw [List.mem_singleton.mp hn, write_file,
              lookupD_writeD_self]
            rfl

/-- C9: when a deployed artifact's effective payload is not valid UTF-8
and its write path is taken, the run aborts with the uncaught decoding
error: the interpreter exits nonzero, no completed (committed) outcome is
produced, and the files written earlier in the same run remain on disk. -/
theorem claim9_invalid_utf8 (hash : Bytes → Bytes)
    (es1 es2 : List RemoteEntry) (e : RemoteEntry) (fd : FileDetail)
    (disk0 : Disk) (od : Bool) (d1 : Disk) (w1 : List String) (c1 : Bool)
    (hdep : e.deployed = true) (hfd : e.fetched = .ok fd)
    (hpre : fetchLoop hash (deployedEntries es1) disk0 [] false =
      .ok (d1, w1, c1))
    (hwn : writeNeeded hash fd d1 = true)
    (hbad : utf8Decode (file_source fd) = none) :
    runRemote hash (es1 ++ e :: es2) disk0 od = .uncaught d1 w1 ∧
    exitCode (runRemote hash (es1 ++ e :: es2) disk0 od) ≠ 0 ∧
    (∀ n ∈ w1, (lookupD d1 n).isSome) := by
  have hsplit : deployedEntries (es1 ++ e :: es2) =
      deployedEntries es1 ++ e :: deployedEntries es2 := by
    rw [deployedEntries_append, deployedEntries_cons_deployed e es2 hdep]
  have hloop : fetchLoop hash (deployedEntries (es1 ++ e :: es2)) disk0
      [] false = .error (.decodeErr, d1, w1) := by
    rw [hsplit, fetchLoop_append hash (deployedEntries es1)
      (e :: deployedEntries es2) disk0 [] false d1 w1 c1 hpre]
    rw [fetchLoop]
    simp only [hfd]
    rw [process_file_decode_fail hash fd d1 hwn hbad]
  have hres : runRemote hash (es1 ++ e :: es2) disk0 od =
      .uncaught d1 w1 := by
    simp only [runRemote, hloop]
  refine ⟨hres, ?_, ?_⟩
  · rw [hres]
    simp [exitCode]
  · exact fetchLoop_written_present hash (deployedEntries es1) disk0 []
      false d1 w1 c1 hpre (fun n hn => absurd hn (List.not_mem_nil n))

/-- Deployed artifact whose payload byte `0x80` is not valid UTF-8. -/
def wBadDetail : FileDetail := ⟨5, "bad.vcl", [0], [0x80], []⟩

/-- Listing entry for `wBadDetail`. -/
def wBad : RemoteEntry := ⟨5, "bad.vcl", true, .ok wBadDetail⟩

/-- Witness for C9: after `n.vcl` is written, the invalid payload of
`bad.vcl` aborts the run uncaught, with `n.vcl` still on disk. -/
theorem claim9_invalid_utf8_witness :
    runRemote wHash ([wNew] ++ wBad :: []) [] false =
      .uncaught [("n.vcl", [110])] ["n.vcl"] ∧
    exitCode (runRemote wHash ([wNew] ++ wBad :: []) [] false) ≠ 0 ∧
    (∀ n ∈ ["n.vcl"], (lookupD [("n.vcl", [110])] n).isSome) :=
  claim9_invalid_utf8 wHash [wNew] [] wBad wBadDetail [] false
    [("n.vcl", [110])] ["n.vcl"] true rfl rfl rfl (by decide)
    (by decide)

/-- A run in which some request raised a `requests` exception: at login,
at the listing, or at a per-artifact content request inside the loop. -/
def reqErrorRaised (hash : Bytes → Bytes) (login : Except ReqError Unit)
    (listing : Except ReqError (List RemoteEntry)) (disk0 : Disk) : Prop :=
  (∃ e, login = .error e) ∨ (∃ e, listing = .error e) ∨
  (∃ files e d w, listing = .ok files ∧
    fetchLoop hash (deployedEntries files) disk0 [] false =
      .error (.req e, d, w))

/-- C10: every run in which an HTTP, connection, timeout or other
request error is raised during the fetch/apply phase ends with the
error caught and logged, and the process terminating with exit code 0. -/
theorem claim10_exit_zero (hash : Bytes → Bytes)
    (login : Except ReqError Unit)
    (listing : Except ReqError (List RemoteEntry)) (disk0 : Disk)
    (od : Bool) (h : reqErrorRaised hash login listing disk0) :
    (∃ e d w, run hash login listing disk0 od = .caught e d w) ∧
    exitCode (run hash login listing disk0 od) = 0 := by
  have hc : ∃ e d w, run hash login listing disk0 od = .caught e d w := by
    rcases h with ⟨e, herr⟩ | ⟨e, herr⟩ | ⟨files, e, d, w, hlist, hloop⟩
    · exact ⟨e, disk0, [], by simp only [run, herr]⟩
    · cases hl : login with
      | error e2 => exact ⟨e2, disk0, [], by simp only [run, hl]⟩
      | ok u => exact ⟨e, disk0, [], by simp only [run, hl, herr]⟩
    · cases hl : login with
      | error e2 => exact ⟨e2, disk0, [], by simp only [run, hl]⟩
      | ok u =>
        refine ⟨e, d, w, ?_⟩
        simp only [run, hl, hlist, runRemote, hloop]
  refine ⟨hc, ?_⟩
  obtain ⟨e, d, w, hr⟩ := hc
  rw [hr]
  rfl

/-- Witness for C10 at a concrete run whose login request fails with a
connection error. -/
theorem claim10_exit_zero_witness :
    (∃ e d w,
      run wHash (.error .connectionError) (.ok [wA]) wDisk0 false =
        .caught e d w) ∧
    exitCode
      (run wHash (.error .connectionError) (.ok [wA]) wDisk0 false) = 0 :=
  claim10_exit_zero wHash (.error .connectionError) (.ok [wA]) wDisk0
    false (Or.inl ⟨.connectionError, rfl⟩)
